import Mathlib

/-!
Verification of the bson-tag annotation rewriter (`scripts/add_bson_tags.py`).

The script walks the sorted `*.go` files of a model directory (skipping
`_test.go` files), and for each file that does not already contain the
substring `bson:"` it rewrites every occurrence of the regex

  `json:"([^"]*)" db:"([^"]*)"`

into `json:"<g1>" bson:"<derived>" db:"<g2>"`, where the derived value is
computed by `replace_json_db` from the two captured groups.  It then reports
`SKIP`, `Updated (n bson tags added)` (with `n` the number of `bson:"`
occurrences found in the new text) or `No changes`.

File contents are modelled as `List Char`.  The regex is embedded directly:
since `[^"]*` can never cross a quote, matching at a position is
deterministic (no backtracking), so a match at a position is a straight
sequence of literal and capture steps, and `re.sub` is the left-to-right
scan that replaces each leftmost match and resumes after it.
-/

/-! ### The regex engine for `json:"([^"]*)" db:"([^"]*)"` -/

/-- Strip the literal `pat` from the front of `s`, returning the remainder. -/
def stripPrefixChars : List Char → List Char → Option (List Char)
  | [], s => some s
  | _ :: _, [] => none
  | p :: ps, c :: cs => if c = p then stripPrefixChars ps cs else none

/-- Match `([^"]*)"`: the characters before the first `'"'` together with the
remainder after that quote; `none` when no quote follows (the regex then
fails to match). -/
def takeUntilQuote : List Char → Option (List Char × List Char)
  | [] => none
  | c :: rest =>
    if c = '"' then some ([], rest)
    else
      match takeUntilQuote rest with
      | none => none
      | some (a, r) => some (c :: a, r)

/-- The literal `json:"` opening the regex. -/
def jsonTagL : List Char := "json:\"".data

/-- The substring `bson:"` used both by the skip guard and by the
`Updated` count (`re.findall`). -/
def markerL : List Char := "bson:\"".data

/-- Attempt to match `json:"([^"]*)" db:"([^"]*)"` at the head of `s`;
on success return the two captured groups and the remainder of `s`
after the match. -/
def matchAt (s : List Char) : Option (List Char × List Char × List Char) :=
  match stripPrefixChars jsonTagL s with
  | none => none
  | some s1 =>
    match takeUntilQuote s1 with
    | none => none
    | some (jv, s2) =>
      match stripPrefixChars (" db:\"".data) s2 with
      | none => none
      | some s3 =>
        match takeUntilQuote s3 with
        | none => none
        | some (dv, s4) => some (jv, dv, s4)

/-! ### The derivation rules of `replace_json_db` -/

/-- The Python `v.split(',')` operation: split at every comma; never returns `[]`. -/
def splitComma : List Char → List (List Char)
  | [] => [[]]
  | c :: rest =>
    if c = ',' then [] :: splitComma rest
    else
      match splitComma rest with
      | [] => [[c]]
      | g :: gs => (c :: g) :: gs

/-- The Python `v.split(',')[0]` operation: the first comma-separated component. -/
def firstComp (v : List Char) : List Char := (splitComma v).headD []

/-- The Python `pat in s` test: substring containment. -/
def containsSub (pat : List Char) : List Char → Bool
  | [] => pat.isEmpty
  | c :: rest => (stripPrefixChars pat (c :: rest)).isSome || containsSub pat rest

/-- `omitempty = ',omitempty' in json_val`. -/
def omitemptyOf (json_val : List Char) : Bool :=
  containsSub (",omitempty".data) json_val

/-- The derived field name: `db` fallback for `-`, `_id` for `id`,
identity otherwise (`bson_name` in the script). -/
def bsonNameOf (json_val db_val : List Char) : List Char :=
  if firstComp json_val = "-".data then firstComp db_val
  else if firstComp json_val = "id".data then "_id".data
  else firstComp json_val

/-- `bson_val = bson_name + (',omitempty' if omitempty else '')`. -/
def bsonValOf (json_val db_val : List Char) : List Char :=
  bsonNameOf json_val db_val ++ (if omitemptyOf json_val then ",omitempty".data else [])

/-- The replacement text built by the f-string: the primary annotation, the new bson annotation, and the secondary annotation, space-separated. -/
def replaceChars (json_val db_val : List Char) : List Char :=
  "json:\"".data ++ json_val ++ "\" bson:\"".data ++ bsonValOf json_val db_val
    ++ "\" db:\"".data ++ db_val ++ "\"".data

/-! ### `re.sub`, `re.findall` and the per-file pipeline

The scanning functions are written with an explicit fuel argument (an upper
bound on the length of the text) so that they are structurally recursive;
`subText s` etc. instantiate the fuel with `s.length`, which the lemmas
below show is always enough. -/

/-- One left-to-right `re.sub` pass: try a match at each position, replace
it and resume after the matched text. -/
def subTextFuel : Nat → List Char → List Char
  | 0, s => s
  | _ + 1, [] => []
  | fuel + 1, c :: rest =>
    match matchAt (c :: rest) with
    | some (jv, dv, r) => replaceChars jv dv ++ subTextFuel fuel r
    | none => c :: subTextFuel fuel rest

/-- `re.sub(r'json:"([^"]*)" db:"([^"]*)"', replace_json_db, content)`. -/
def subText (s : List Char) : List Char := subTextFuel s.length s

/-- Count the non-overlapping occurrences of `bson:"` left to right. -/
def countBsonFuel : Nat → List Char → Nat
  | 0, _ => 0
  | _ + 1, [] => 0
  | fuel + 1, c :: rest =>
    match stripPrefixChars markerL (c :: rest) with
    | some r => countBsonFuel fuel r + 1
    | none => countBsonFuel fuel rest

/-- `len(re.findall(r'bson:"', s))`. -/
def countBson (s : List Char) : Nat := countBsonFuel s.length s

/-- Count the non-overlapping matches of the two-annotation pattern,
scanning exactly as `re.sub` does. -/
def countMatchesFuel : Nat → List Char → Nat
  | 0, _ => 0
  | _ + 1, [] => 0
  | fuel + 1, c :: rest =>
    match matchAt (c :: rest) with
    | some (_, _, r) => countMatchesFuel fuel r + 1
    | none => countMatchesFuel fuel rest

/-- The number of pattern matches in `s`. -/
def countMatches (s : List Char) : Nat := countMatchesFuel s.length s

/-- The per-file console outcome: `SKIP`, `Updated (n bson tags added)`,
or `No changes`. -/
inductive Report where
  | skip : Report
  | updated : Nat → Report
  | noChanges : Report
deriving DecidableEq

/-- The body of the per-file loop: the skip guard on `bson:"`, the regex
rewrite, and the write-back-only-if-changed comparison, together with the
reported outcome. -/
def processContent (content : List Char) : Report × List Char :=
  if containsSub markerL content then (Report.skip, content)
  else
    let newContent := subText content
    if newContent ≠ content then (Report.updated (countBson newContent), newContent)
    else (Report.noChanges, content)

/-! ### The file selector -/

/-- Boolean prefix test, via `stripPrefixChars`. -/
def isPrefixOfB (p s : List Char) : Bool := (stripPrefixChars p s).isSome

/-- Boolean suffix test. -/
def isSuffixOfB (p s : List Char) : Bool := isPrefixOfB p.reverse s.reverse

/-- Whether `glob.glob(dir + '/*.go')` returns this directory entry: the
name must end in `.go`, and `glob`'s `*` never matches a leading dot
(hidden files are excluded). -/
def globGoMatch (name : String) : Bool :=
  isSuffixOfB (".go".data) name.data && !(isPrefixOfB (".".data) name.data)

/-- The `filepath.endswith('_test.go')` skip. -/
def isTestFile (name : String) : Bool := isSuffixOfB ("_test.go".data) name.data

/-- The file selector: `none` models a missing directory (where `glob`
returns the empty list), `some names` a directory with the given entries.
the builtin `sorted` is modelled by insertion sort, which agrees with it
because `≤` on strings is a total order. -/
def selectFiles : Option (List String) → List String
  | none => []
  | some names =>
      (List.insertionSort (· ≤ ·) (names.filter globGoMatch)).filter
        (fun n => !(isTestFile n))

/-- The selector as the claim states it: every `.go` file except `_test.go`
files, sorted — with no exclusion of hidden files. -/
def claimSelectFiles : Option (List String) → List String
  | none => []
  | some names =>
      List.insertionSort (· ≤ ·)
        (names.filter (fun n => isSuffixOfB (".go".data) n.data && !(isTestFile n)))

/-- The text of one two-annotation occurrence whose annotations are
separated by `sep`: `json:"<jv>"<sep>db:"<dv>"`. -/
def mkPairText (jv sep dv : List Char) : List Char :=
  "json:\"".data ++ jv ++ ['"'] ++ sep ++ "db:\"".data ++ dv ++ ['"']

/-! ### Basic lemmas about the matching primitives -/

theorem stripPrefixChars_sound (p : List Char) :
    ∀ s r, stripPrefixChars p s = some r → s = p ++ r := by
  induction p with
  | nil =>
    intro s r h
    simp only [stripPrefixChars, Option.some.injEq] at h
    simp [h]
  | cons a as ih =>
    intro s r h
    cases s with
    | nil => simp [stripPrefixChars] at h
    | cons c cs =>
      simp only [stripPrefixChars] at h
      by_cases hc : c = a
      · rw [if_pos hc] at h
        have := ih cs r h
        simp [hc, this]
      · rw [if_neg hc] at h
        exact absurd h (by simp)

theorem stripPrefixChars_append (p r : List Char) :
    stripPrefixChars p (p ++ r) = some r := by
  induction p with
  | nil => rfl
  | cons a as ih => simp [stripPrefixChars, ih]

theorem stripPrefixChars_length (p s r : List Char) (hp : p ≠ [])
    (h : stripPrefixChars p s = some r) : r.length < s.length := by
  have hs := stripPrefixChars_sound p s r h
  have : 0 < p.length := List.length_pos.mpr hp
  simp [hs]
  omega

theorem takeUntilQuote_sound :
    ∀ s a r, takeUntilQuote s = some (a, r) → s = a ++ '"' :: r ∧ '"' ∉ a := by
  intro s
  induction s with
  | nil => intro a r h; simp [takeUntilQuote] at h
  | cons c cs ih =>
    intro a r h
    simp only [takeUntilQuote] at h
    by_cases hc : c = '"'
    · rw [if_pos hc] at h
      simp only [Option.some.injEq, Prod.mk.injEq] at h
      obtain ⟨h1, h2⟩ := h
      subst h1; subst h2
      simp [hc]
    · rw [if_neg hc] at h
      cases htq : takeUntilQuote cs with
      | none => rw [htq] at h; exact absurd h (by simp)
      | some pr =>
        obtain ⟨a', r'⟩ := pr
        rw [htq] at h
        simp only [Option.some.injEq, Prod.mk.injEq] at h
        obtain ⟨h1, h2⟩ := h
        subst h1; subst h2
        obtain ⟨he, hm⟩ := ih a' r' htq
        refine ⟨by simp [he], ?_⟩
        intro hmem
        rcases List.mem_cons.mp hmem with h | h
        · exact hc h.symm
        · exact hm h

theorem takeUntilQuote_append (a r : List Char) (h : '"' ∉ a) :
    takeUntilQuote (a ++ '"' :: r) = some (a, r) := by
  induction a with
  | nil => simp [takeUntilQuote]
  | cons c cs ih =>
    have hc : ¬ (c = '"') := fun e => h (by simp [e])
    have hcs : '"' ∉ cs := fun m => h (List.mem_cons_of_mem _ m)
    simp [takeUntilQuote, hc, ih hcs]

theorem matchAt_sound (s jv dv r : List Char) (h : matchAt s = some (jv, dv, r)) :
    s = jsonTagL ++ (jv ++ '"' :: (" db:\"".data ++ (dv ++ '"' :: r)))
      ∧ '"' ∉ jv ∧ '"' ∉ dv := by
  cases h1 : stripPrefixChars jsonTagL s with
  | none => simp [matchAt, h1] at h
  | some s1 =>
    cases h2 : takeUntilQuote s1 with
    | none => simp [matchAt, h1, h2] at h
    | some p2 =>
      obtain ⟨jv', s2⟩ := p2
      cases h3 : stripPrefixChars (" db:\"".data) s2 with
      | none => simp [matchAt, h1, h2, h3] at h
      | some s3 =>
        cases h4 : takeUntilQuote s3 with
        | none => simp [matchAt, h1, h2, h3, h4] at h
        | some p4 =>
          obtain ⟨dv', s4⟩ := p4
          simp only [matchAt, h1, h2, h3, h4, Option.some.injEq, Prod.mk.injEq] at h
          obtain ⟨hjv, hdv, hr⟩ := h
          subst hjv; subst hdv; subst hr
          obtain ⟨e2, m2⟩ := takeUntilQuote_sound s1 jv' s2 h2
          obtain ⟨e4, m4⟩ := takeUntilQuote_sound s3 dv' s4 h4
          have e1 := stripPrefixChars_sound _ _ _ h1
          have e3 := stripPrefixChars_sound _ _ _ h3
          refine ⟨?_, m2, m4⟩
          rw [e1, e2, e3, e4]

theorem matchAt_complete (jv dv r : List Char) (hj : '"' ∉ jv) (hd : '"' ∉ dv) :
    matchAt (jsonTagL ++ (jv ++ '"' :: (" db:\"".data ++ (dv ++ '"' :: r))))
      = some (jv, dv, r) := by
  simp only [matchAt, stripPrefixChars_append, takeUntilQuote_append _ _ hj,
    takeUntilQuote_append _ _ hd]

theorem matchAt_length (s jv dv r : List Char) (h : matchAt s = some (jv, dv, r)) :
    r.length < s.length := by
  obtain ⟨hs, -, -⟩ := matchAt_sound s jv dv r h
  rw [hs]
  simp [jsonTagL]
  omega

/-! ### Fuel elimination for the scanning functions -/

theorem subTextFuel_congr :
    ∀ (f g : Nat) (s : List Char), s.length ≤ f → s.length ≤ g →
      subTextFuel f s = subTextFuel g s := by
  intro f
  induction f with
  | zero =>
    intro g s hf _
    have : s = [] := List.eq_nil_of_length_eq_zero (Nat.le_zero.mp hf)
    subst this
    cases g <;> rfl
  | succ f ih =>
    intro g s hf hg
    cases s with
    | nil => cases g <;> rfl
    | cons c rest =>
      have hlen : rest.length + 1 ≤ g := by simpa using hg
      obtain ⟨g', rfl⟩ : ∃ g', g = g' + 1 := ⟨g - 1, by omega⟩
      cases hm : matchAt (c :: rest) with
      | none =>
        have h1 : rest.length ≤ f := by simpa using hf
        simp only [subTextFuel, hm]
        rw [ih g' rest h1 (by omega)]
      | some p =>
        obtain ⟨jv, dv, r⟩ := p
        have hr : r.length < rest.length + 1 := by
          simpa using matchAt_length _ _ _ _ hm
        simp only [subTextFuel, hm]
        rw [ih g' r (by simp at hf; omega) (by omega)]

theorem subText_nil : subText [] = [] := rfl

theorem subText_cons_match (c : Char) (rest jv dv r : List Char)
    (hm : matchAt (c :: rest) = some (jv, dv, r)) :
    subText (c :: rest) = replaceChars jv dv ++ subText r := by
  show subTextFuel (rest.length + 1) (c :: rest) = _
  simp only [subTextFuel, hm]
  have hr : r.length < rest.length + 1 := by
    simpa using matchAt_length _ _ _ _ hm
  rw [subTextFuel_congr rest.length r.length r (by omega) (le_refl _)]
  rfl

theorem subText_cons_nomatch (c : Char) (rest : List Char)
    (hm : matchAt (c :: rest) = none) :
    subText (c :: rest) = c :: subText rest := by
  show subTextFuel (rest.length + 1) (c :: rest) = _
  simp only [subTextFuel, hm]
  rfl

theorem countMatchesFuel_congr :
    ∀ (f g : Nat) (s : List Char), s.length ≤ f → s.length ≤ g →
      countMatchesFuel f s = countMatchesFuel g s := by
  intro f
  induction f with
  | zero =>
    intro g s hf _
    have : s = [] := List.eq_nil_of_length_eq_zero (Nat.le_zero.mp hf)
    subst this
    cases g <;> rfl
  | succ f ih =>
    intro g s hf hg
    cases s with
    | nil => cases g <;> rfl
    | cons c rest =>
      have hlen : rest.length + 1 ≤ g := by simpa using hg
      obtain ⟨g', rfl⟩ : ∃ g', g = g' + 1 := ⟨g - 1, by omega⟩
      cases hm : matchAt (c :: rest) with
      | none =>
        have h1 : rest.length ≤ f := by simpa using hf
        simp only [countMatchesFuel, hm]
        rw [ih g' rest h1 (by omega)]
      | some p =>
        obtain ⟨jv, dv, r⟩ := p
        have hr : r.length < rest.length + 1 := by
          simpa using matchAt_length _ _ _ _ hm
        simp only [countMatchesFuel, hm]
        rw [ih g' r (by simp at hf; omega) (by omega)]

theorem countMatches_nil : countMatches [] = 0 := rfl

theorem countMatches_cons_match (c : Char) (rest jv dv r : List Char)
    (hm : matchAt (c :: rest) = some (jv, dv, r)) :
    countMatches (c :: rest) = countMatches r + 1 := by
  show countMatchesFuel (rest.length + 1) (c :: rest) = _
  simp only [countMatchesFuel, hm]
  have hr : r.length < rest.length + 1 := by
    simpa using matchAt_length _ _ _ _ hm
  rw [countMatchesFuel_congr rest.length r.length r (by omega) (le_refl _)]
  rfl

theorem countMatches_cons_nomatch (c : Char) (rest : List Char)
    (hm : matchAt (c :: rest) = none) :
    countMatches (c :: rest) = countMatches rest := by
  show countMatchesFuel (rest.length + 1) (c :: rest) = _
  simp only [countMatchesFuel, hm]
  rfl

theorem markerL_ne_nil : markerL ≠ [] := by decide

theorem countBsonFuel_congr :
    ∀ (f g : Nat) (s : List Char), s.length ≤ f → s.length ≤ g →
      countBsonFuel f s = countBsonFuel g s := by
  intro f
  induction f with
  | zero =>
    intro g s hf _
    have : s = [] := List.eq_nil_of_length_eq_zero (Nat.le_zero.mp hf)
    subst this
    cases g <;> rfl
  | succ f ih =>
    intro g s hf hg
    cases s with
    | nil => cases g <;> rfl
    | cons c rest =>
      have hlen : rest.length + 1 ≤ g := by simpa using hg
      obtain ⟨g', rfl⟩ : ∃ g', g = g' + 1 := ⟨g - 1, by omega⟩
      cases hm : stripPrefixChars markerL (c :: rest) with
      | none =>
        have h1 : rest.length ≤ f := by simpa using hf
        simp only [countBsonFuel, hm]
        rw [ih g' rest h1 (by omega)]
      | some r =>
        have hr : r.length < rest.length + 1 := by
          simpa using stripPrefixChars_length _ _ _ markerL_ne_nil hm
        simp only [countBsonFuel, hm]
        rw [ih g' r (by simp at hf; omega) (by omega)]

theorem countBson_cons_match (c : Char) (rest r : List Char)
    (hm : stripPrefixChars markerL (c :: rest) = some r) :
    countBson (c :: rest) = countBson r + 1 := by
  show countBsonFuel (rest.length + 1) (c :: rest) = _
  simp only [countBsonFuel, hm]
  have hr : r.length < rest.length + 1 := by
    simpa using stripPrefixChars_length _ _ _ markerL_ne_nil hm
  rw [countBsonFuel_congr rest.length r.length r (by omega) (le_refl _)]
  rfl

theorem countBson_cons_nomatch (c : Char) (rest : List Char)
    (hm : stripPrefixChars markerL (c :: rest) = none) :
    countBson (c :: rest) = countBson rest := by
  show countBsonFuel (rest.length + 1) (c :: rest) = _
  simp only [countBsonFuel, hm]
  rfl

/-! ### Lengths of the literal fragments -/

theorem len_json_lit : ("json:\"".data).length = 6 := rfl

theorem len_sep_lit : ((" db:\"".data) : List Char).length = 5 := rfl

theorem len_bsonmid_lit : ("\" bson:\"".data).length = 8 := rfl

theorem len_dbmid_lit : ("\" db:\"".data).length = 6 := rfl

theorem len_quote_lit : ("\"".data).length = 1 := rfl

theorem jsonTagL_len : jsonTagL.length = 6 := rfl

/-! ### Lemmas about `splitComma` and `containsSub` -/

theorem splitComma_ne_nil : ∀ l : List Char, splitComma l ≠ [] := by
  intro l
  cases l with
  | nil => simp [splitComma]
  | cons c rest =>
    simp only [splitComma]
    by_cases hc : c = ','
    · simp [hc]
    · rw [if_neg hc]
      cases splitComma rest <;> simp

theorem firstComp_nil : firstComp [] = [] := rfl

theorem firstComp_comma (rest : List Char) : firstComp (',' :: rest) = [] := by
  simp [firstComp, splitComma]

theorem firstComp_cons (c : Char) (rest : List Char) (hc : c ≠ ',') :
    firstComp (c :: rest) = c :: firstComp rest := by
  simp only [firstComp, splitComma, if_neg hc]
  cases h : splitComma rest with
  | nil => exact absurd h (splitComma_ne_nil rest)
  | cons g gs => simp

theorem comma_not_mem_firstComp : ∀ v : List Char, ',' ∉ firstComp v := by
  intro v
  induction v with
  | nil => simp [firstComp_nil]
  | cons c rest ih =>
    by_cases hc : c = ','
    · subst hc; simp [firstComp_comma]
    · rw [firstComp_cons c rest hc]
      intro hmem
      rcases List.mem_cons.mp hmem with h | h
      · exact hc h.symm
      · exact ih h

theorem containsSub_nil_pat : ∀ s : List Char, containsSub [] s = true := by
  intro s
  cases s with
  | nil => rfl
  | cons c rest => simp [containsSub, stripPrefixChars]

theorem containsSub_cons_of (pat : List Char) (c : Char) (rest : List Char)
    (h : containsSub pat rest = true) : containsSub pat (c :: rest) = true := by
  simp [containsSub, h]

theorem containsSub_sandwich : ∀ (A pat B : List Char), containsSub pat (A ++ (pat ++ B)) = true := by
  intro A pat B
  induction A with
  | nil =>
    cases pat with
    | nil => exact containsSub_nil_pat _
    | cons p ps =>
      show containsSub (p :: ps) ((p :: ps) ++ B) = true
      have hstrip : stripPrefixChars (p :: ps) ((p :: ps) ++ B) = some B :=
        stripPrefixChars_append _ _
      rw [List.cons_append] at hstrip ⊢
      simp [containsSub, hstrip]
  | cons a A' ih =>
    show containsSub pat (a :: (A' ++ (pat ++ B))) = true
    exact containsSub_cons_of _ _ _ ih

/-! ### Global properties of the `re.sub` scan -/

theorem subText_eq_of_countMatches_zero :
    ∀ (n : Nat) (s : List Char), s.length ≤ n → countMatches s = 0 → subText s = s := by
  intro n
  induction n with
  | zero =>
    intro s h _
    have : s = [] := List.eq_nil_of_length_eq_zero (Nat.le_zero.mp h)
    simp [this, subText_nil]
  | succ n ih =>
    intro s hs hc
    cases s with
    | nil => exact subText_nil
    | cons c rest =>
      cases hm : matchAt (c :: rest) with
      | some p =>
        obtain ⟨jv, dv, r⟩ := p
        rw [countMatches_cons_match _ _ _ _ _ hm] at hc
        omega
      | none =>
        rw [subText_cons_nomatch _ _ hm]
        rw [countMatches_cons_nomatch _ _ hm] at hc
        rw [ih rest (by simp at hs; omega) hc]

theorem replaceChars_length (jv dv : List Char) :
    (replaceChars jv dv).length
      = jv.length + (bsonValOf jv dv).length + dv.length + 21 := by
  simp [replaceChars, len_json_lit, len_bsonmid_lit, len_dbmid_lit, len_quote_lit]
  omega

theorem subText_length :
    ∀ (n : Nat) (s : List Char), s.length ≤ n →
      s.length + countMatches s ≤ (subText s).length := by
  intro n
  induction n with
  | zero =>
    intro s h
    have : s = [] := List.eq_nil_of_length_eq_zero (Nat.le_zero.mp h)
    simp [this, subText_nil, countMatches_nil]
  | succ n ih =>
    intro s hs
    cases s with
    | nil => simp [subText_nil, countMatches_nil]
    | cons c rest =>
      cases hm : matchAt (c :: rest) with
      | none =>
        rw [subText_cons_nomatch _ _ hm, countMatches_cons_nomatch _ _ hm]
        have := ih rest (by simp at hs; omega)
        simp only [List.length_cons]
        omega
      | some p =>
        obtain ⟨jv, dv, r⟩ := p
        rw [subText_cons_match _ _ _ _ _ hm, countMatches_cons_match _ _ _ _ _ hm]
        have hr : r.length < rest.length + 1 := by
          simpa using matchAt_length _ _ _ _ hm
        have hs' : rest.length + 1 ≤ n + 1 := by simpa using hs
        have ihr := ih r (by omega)
        have hl := congrArg List.length (matchAt_sound _ _ _ _ hm).1
        simp only [List.length_cons, List.length_append, List.length_nil,
          jsonTagL_len, len_sep_lit] at hl
        simp only [List.length_append, List.length_cons, replaceChars_length]
        omega

theorem marker_in_replaceChars_append (jv dv X : List Char) :
    containsSub markerL (replaceChars jv dv ++ X) = true := by
  have hq : ("\" bson:\"".data : List Char) = ['"', ' '] ++ markerL := rfl
  have hq2 : markerL = ['b', 's', 'o', 'n', ':', '"'] := rfl
  have he : replaceChars jv dv ++ X
      = ("json:\"".data ++ jv ++ ['"', ' '])
        ++ (markerL ++ (bsonValOf jv dv ++ ("\" db:\"".data ++ (dv ++ ("\"".data ++ X))))) := by
    simp [replaceChars, hq, hq2, List.append_assoc]
  rw [he]
  exact containsSub_sandwich _ _ _

theorem containsSub_marker_subText :
    ∀ (n : Nat) (s : List Char), s.length ≤ n → 1 ≤ countMatches s →
      containsSub markerL (subText s) = true := by
  intro n
  induction n with
  | zero =>
    intro s h hc
    have : s = [] := List.eq_nil_of_length_eq_zero (Nat.le_zero.mp h)
    subst this
    simp [countMatches_nil] at hc
  | succ n ih =>
    intro s hs hc
    cases s with
    | nil => simp [countMatches_nil] at hc
    | cons c rest =>
      cases hm : matchAt (c :: rest) with
      | some p =>
        obtain ⟨jv, dv, r⟩ := p
        rw [subText_cons_match _ _ _ _ _ hm]
        exact marker_in_replaceChars_append _ _ _
      | none =>
        rw [subText_cons_nomatch _ _ hm]
        rw [countMatches_cons_nomatch _ _ hm] at hc
        exact containsSub_cons_of _ _ _ (ih rest (by simp at hs; omega) hc)

/-! ### Where the pattern cannot match

The literal `json:"` is four colon-free, quote-free characters followed by
`:` and `"`.  Inside a region of the form `u ++ '"' :: R` with `u`
colon-free, such a pattern can never line up: its `:` would have to land
inside `u`, and its single `"` can only be its final character. -/

theorem stripPrefixChars_shape_none :
    ∀ (p' u R : List Char), '"' ∉ p' → ':' ∉ p' → ':' ∉ u →
      stripPrefixChars (p' ++ [':', '"']) (u ++ '"' :: R) = none := by
  intro p'
  induction p' with
  | nil =>
    intro u R _ _ hu
    cases u with
    | nil =>
      show stripPrefixChars (':' :: ['"']) ('"' :: R) = none
      simp only [stripPrefixChars]
      rw [if_neg (by decide : ¬ (('"' : Char) = ':'))]
    | cons c u' =>
      have hc : ¬ (c = ':') := fun e => hu (by simp [e])
      show stripPrefixChars (':' :: ['"']) (c :: (u' ++ '"' :: R)) = none
      simp only [stripPrefixChars]
      rw [if_neg hc]
  | cons a p'' ih =>
    intro u R hq hc hu
    have hq'' : '"' ∉ p'' := fun m => hq (List.mem_cons_of_mem _ m)
    have hc'' : ':' ∉ p'' := fun m => hc (List.mem_cons_of_mem _ m)
    cases u with
    | nil =>
      have ha : ¬ (('"' : Char) = a) := fun e => hq (by simp [← e])
      show stripPrefixChars (a :: (p'' ++ [':', '"'])) ('"' :: R) = none
      simp only [stripPrefixChars]
      rw [if_neg ha]
    | cons c u' =>
      have hu' : ':' ∉ u' := fun m => hu (List.mem_cons_of_mem _ m)
      show stripPrefixChars (a :: (p'' ++ [':', '"'])) (c :: (u' ++ '"' :: R)) = none
      simp only [stripPrefixChars]
      by_cases hca : c = a
      · rw [if_pos hca]
        exact ih u' R hq'' hc'' hu'
      · rw [if_neg hca]

theorem matchAt_none_of_strip (s : List Char)
    (h : stripPrefixChars jsonTagL s = none) : matchAt s = none := by
  simp [matchAt, h]

theorem jsonTagL_decomp : jsonTagL = ['j', 's', 'o', 'n'] ++ [':', '"'] := rfl

theorem matchAt_none_shape (u R : List Char) (hu : ':' ∉ u) :
    matchAt (u ++ '"' :: R) = none := by
  apply matchAt_none_of_strip
  rw [jsonTagL_decomp]
  exact stripPrefixChars_shape_none _ _ _ (by decide) (by decide) hu

theorem matchAt_cons_ne (c : Char) (l : List Char) (hc : c ≠ 'j') :
    matchAt (c :: l) = none := by
  apply matchAt_none_of_strip
  have hj : jsonTagL = 'j' :: "son:\"".data := rfl
  rw [hj]
  simp only [stripPrefixChars]
  rw [if_neg hc]

/-! ### The scan is the identity on a whitespace-separated pair -/

theorem subText_id_dv (dv : List Char) (hd : ':' ∉ dv) :
    subText (dv ++ ['"']) = dv ++ ['"'] := by
  induction dv with
  | nil =>
    show subText ['"'] = ['"']
    rw [subText_cons_nomatch _ _ (matchAt_cons_ne _ _ (by decide)), subText_nil]
  | cons c dv' ih =>
    have hd' : ':' ∉ dv' := fun m => hd (List.mem_cons_of_mem _ m)
    have hm : matchAt (c :: (dv' ++ ['"'])) = none := matchAt_none_shape (c :: dv') [] hd
    show subText (c :: (dv' ++ ['"'])) = c :: (dv' ++ ['"'])
    rw [subText_cons_nomatch _ _ hm, ih hd']

theorem subText_id_db (dv : List Char) (hd : ':' ∉ dv) :
    subText ("db:\"".data ++ (dv ++ ['"'])) = "db:\"".data ++ (dv ++ ['"']) := by
  show subText ('d' :: 'b' :: ':' :: '"' :: (dv ++ ['"']))
      = 'd' :: 'b' :: ':' :: '"' :: (dv ++ ['"'])
  rw [subText_cons_nomatch _ _ (matchAt_cons_ne _ _ (by decide)),
    subText_cons_nomatch _ _ (matchAt_cons_ne _ _ (by decide)),
    subText_cons_nomatch _ _ (matchAt_cons_ne _ _ (by decide)),
    subText_cons_nomatch _ _ (matchAt_cons_ne _ _ (by decide)),
    subText_id_dv dv hd]

theorem subText_id_sep (sep dv : List Char)
    (hsep : ∀ c ∈ sep, c = ' ' ∨ c = '\t' ∨ c = '\n') (hd : ':' ∉ dv) :
    subText (sep ++ ("db:\"".data ++ (dv ++ ['"'])))
      = sep ++ ("db:\"".data ++ (dv ++ ['"'])) := by
  induction sep with
  | nil => simpa using subText_id_db dv hd
  | cons c sep' ih =>
    have hc := hsep c (by simp)
    have hcj : c ≠ 'j' := by rcases hc with h | h | h <;> subst h <;> decide
    show subText (c :: (sep' ++ ("db:\"".data ++ (dv ++ ['"']))))
        = c :: (sep' ++ ("db:\"".data ++ (dv ++ ['"'])))
    rw [subText_cons_nomatch _ _ (matchAt_cons_ne _ _ hcj),
      ih (fun x hx => hsep x (List.mem_cons_of_mem _ hx))]

theorem subText_id_jv (jv sep dv : List Char) (hj : ':' ∉ jv)
    (hsep : ∀ c ∈ sep, c = ' ' ∨ c = '\t' ∨ c = '\n') (hd : ':' ∉ dv) :
    subText (jv ++ '"' :: (sep ++ ("db:\"".data ++ (dv ++ ['"']))))
      = jv ++ '"' :: (sep ++ ("db:\"".data ++ (dv ++ ['"']))) := by
  induction jv with
  | nil =>
    show subText ('"' :: (sep ++ ("db:\"".data ++ (dv ++ ['"']))))
        = '"' :: (sep ++ ("db:\"".data ++ (dv ++ ['"'])))
    rw [subText_cons_nomatch _ _ (matchAt_cons_ne _ _ (by decide)),
      subText_id_sep sep dv hsep hd]
  | cons c jv' ih =>
    have hj' : ':' ∉ jv' := fun m => hj (List.mem_cons_of_mem _ m)
    have hm : matchAt (c :: (jv' ++ '"' :: (sep ++ ("db:\"".data ++ (dv ++ ['"']))))) = none :=
      matchAt_none_shape (c :: jv') _ hj
    show subText (c :: (jv' ++ '"' :: (sep ++ ("db:\"".data ++ (dv ++ ['"'])))))
        = c :: (jv' ++ '"' :: (sep ++ ("db:\"".data ++ (dv ++ ['"']))))
    rw [subText_cons_nomatch _ _ hm, ih hj']

theorem strip_sepTag_none (sep Z : List Char)
    (hsep : ∀ c ∈ sep, c = ' ' ∨ c = '\t' ∨ c = '\n') (hne : sep ≠ [' ']) :
    stripPrefixChars (" db:\"".data) (sep ++ ('d' :: 'b' :: ':' :: '"' :: Z)) = none := by
  cases sep with
  | nil =>
    show stripPrefixChars (' ' :: "db:\"".data) ('d' :: 'b' :: ':' :: '"' :: Z) = none
    simp only [stripPrefixChars]
    rw [if_neg (by decide : ¬ (('d' : Char) = ' '))]
  | cons c cs =>
    rcases hsep c (by simp) with h | h | h
    · subst h
      cases cs with
      | nil => exact absurd rfl hne
      | cons c' cs' =>
        have hc' : ¬ (c' = 'd') := by
          rcases hsep c' (by simp) with h' | h' | h' <;> subst h' <;> decide
        show stripPrefixChars (' ' :: 'd' :: "b:\"".data)
            (' ' :: (c' :: (cs' ++ ('d' :: 'b' :: ':' :: '"' :: Z)))) = none
        simp only [stripPrefixChars]
        simp [hc']
    · subst h
      show stripPrefixChars (' ' :: "db:\"".data)
          ('\t' :: (cs ++ ('d' :: 'b' :: ':' :: '"' :: Z))) = none
      simp only [stripPrefixChars]
      rw [if_neg (by decide : ¬ (('\t' : Char) = ' '))]
    · subst h
      show stripPrefixChars (' ' :: "db:\"".data)
          ('\n' :: (cs ++ ('d' :: 'b' :: ':' :: '"' :: Z))) = none
      simp only [stripPrefixChars]
      rw [if_neg (by decide : ¬ (('\n' : Char) = ' '))]

theorem mkPairText_decomp (jv sep dv : List Char) :
    mkPairText jv sep dv
      = jsonTagL ++ (jv ++ '"' :: (sep ++ ('d' :: 'b' :: ':' :: '"' :: (dv ++ ['"'])))) := by
  have hdb : ("db:\"".data : List Char) = 'd' :: 'b' :: ':' :: '"' :: [] := rfl
  simp [mkPairText, jsonTagL, hdb, List.append_assoc]

theorem matchAt_pair_none (jv sep dv : List Char) (hjq : '"' ∉ jv)
    (hsep : ∀ c ∈ sep, c = ' ' ∨ c = '\t' ∨ c = '\n') (hne : sep ≠ [' ']) :
    matchAt (mkPairText jv sep dv) = none := by
  rw [mkPairText_decomp]
  simp only [matchAt, stripPrefixChars_append, takeUntilQuote_append _ _ hjq,
    strip_sepTag_none sep _ hsep hne]

theorem comma_not_mem_bsonNameOf (jv dv : List Char) : ',' ∉ bsonNameOf jv dv := by
  unfold bsonNameOf
  split_ifs with h1 h2
  · exact comma_not_mem_firstComp dv
  · decide
  · exact comma_not_mem_firstComp jv

/-! ### The claims -/

/-- Claim C1: for a matched pair of annotation values, the derived name
follows the exact precedence: first component `-` → first component of the
secondary value, first component `id` → `_id`, otherwise the primary's own
first component; and the derived value carries the `,omitempty` modifier
iff the primary value carries it (the right-hand side depends only on the
primary value, so the secondary's modifier is irrelevant). -/
theorem claim_C1 (json_val db_val : List Char) :
    (firstComp json_val = "-".data → bsonNameOf json_val db_val = firstComp db_val) ∧
    (firstComp json_val = "id".data → bsonNameOf json_val db_val = "_id".data) ∧
    (firstComp json_val ≠ "-".data → firstComp json_val ≠ "id".data →
      bsonNameOf json_val db_val = firstComp json_val) ∧
    ((",omitempty".data <:+ bsonValOf json_val db_val) ↔ omitemptyOf json_val = true) := by
  refine ⟨?_, ?_, ?_, ?_⟩
  · intro h
    unfold bsonNameOf
    rw [if_pos h]
  · intro h
    have hne : ¬ (firstComp json_val = "-".data) := by rw [h]; decide
    unfold bsonNameOf
    rw [if_neg hne, if_pos h]
  · intro h1 h2
    unfold bsonNameOf
    rw [if_neg h1, if_neg h2]
  · cases ho : omitemptyOf json_val with
    | false =>
      have hval : bsonValOf json_val db_val = bsonNameOf json_val db_val := by
        simp [bsonValOf, ho]
      rw [hval]
      apply iff_of_false
      · intro hs
        have hmem : ',' ∈ bsonNameOf json_val db_val :=
          hs.sublist.subset (by decide : ',' ∈ (",omitempty".data))
        exact comma_not_mem_bsonNameOf _ _ hmem
      · simp
    | true =>
      have hval : bsonValOf json_val db_val
          = bsonNameOf json_val db_val ++ ",omitempty".data := by
        simp [bsonValOf, ho]
      rw [hval]
      exact iff_of_true (List.suffix_append _ _) rfl

/-- Witness for C1 at the spec's sample derivations. -/
theorem claim_C1_witness :
    bsonNameOf ("-".data) ("yyy,omitempty".data) = "yyy".data ∧
    bsonNameOf ("id".data) ("id".data) = "_id".data ∧
    bsonNameOf ("xxx".data) ("yyy".data) = "xxx".data := by
  refine ⟨?_, ?_, ?_⟩
  · have h := (claim_C1 ("-".data) ("yyy,omitempty".data)).1 (by decide)
    rw [h]; decide
  · exact (claim_C1 ("id".data) ("id".data)).2.1 (by decide)
  · have h := (claim_C1 ("xxx".data) ("yyy".data)).2.2.1 (by decide) (by decide)
    rw [h]; decide

/-- Claim C2: a matched occurrence is exactly the primary annotation, one
space, the secondary annotation (so both substrings are recovered verbatim),
and its replacement is exactly the primary annotation, one space, the new
annotation, one space, the secondary annotation. -/
theorem claim_C2 (s jv dv r : List Char) (h : matchAt s = some (jv, dv, r)) :
    s = (("json:\"".data ++ jv ++ ['"']) ++ [' '] ++ ("db:\"".data ++ dv ++ ['"'])) ++ r ∧
    replaceChars jv dv
      = ("json:\"".data ++ jv ++ ['"']) ++ [' ']
        ++ ("bson:\"".data ++ bsonValOf jv dv ++ ['"']) ++ [' ']
        ++ ("db:\"".data ++ dv ++ ['"']) := by
  obtain ⟨hs, -, -⟩ := matchAt_sound s jv dv r h
  have e1 : ("json:\"".data : List Char) = 'j' :: 's' :: 'o' :: 'n' :: ':' :: '"' :: [] := rfl
  have e2 : ((" db:\"".data) : List Char) = ' ' :: 'd' :: 'b' :: ':' :: '"' :: [] := rfl
  have e3 : ("db:\"".data : List Char) = 'd' :: 'b' :: ':' :: '"' :: [] := rfl
  have e4 : ("\" bson:\"".data : List Char)
      = '"' :: ' ' :: 'b' :: 's' :: 'o' :: 'n' :: ':' :: '"' :: [] := rfl
  have e5 : ("\" db:\"".data : List Char) = '"' :: ' ' :: 'd' :: 'b' :: ':' :: '"' :: [] := rfl
  have e6 : ("bson:\"".data : List Char) = 'b' :: 's' :: 'o' :: 'n' :: ':' :: '"' :: [] := rfl
  have e7 : ("\"".data : List Char) = ['"'] := rfl
  constructor
  · rw [hs]
    simp [jsonTagL, e1, e2, e3, List.append_assoc]
  · simp [replaceChars, e1, e3, e4, e5, e6, e7, List.append_assoc]

/-- Witness for C2 on a concrete matched occurrence. -/
theorem claim_C2_witness :
    ("json:\"a\" db:\"b\"".data : List Char)
        = (("json:\"".data ++ "a".data ++ ['"']) ++ [' ']
            ++ ("db:\"".data ++ "b".data ++ ['"'])) ++ [] ∧
    replaceChars ("a".data) ("b".data)
      = ("json:\"".data ++ "a".data ++ ['"']) ++ [' ']
        ++ ("bson:\"".data ++ bsonValOf ("a".data) ("b".data) ++ ['"']) ++ [' ']
        ++ ("db:\"".data ++ "b".data ++ ['"']) :=
  claim_C2 ("json:\"a\" db:\"b\"".data) ("a".data) ("b".data) [] (by decide)

/-- Claim C4: a file whose content contains the `bson:"` marker anywhere is
reported as skipped and left byte-identical. -/
theorem claim_C4 (content A B : List Char) (h : content = A ++ (markerL ++ B)) :
    processContent content = (Report.skip, content) := by
  have hc : containsSub markerL content = true := by
    rw [h]; exact containsSub_sandwich _ _ _
  simp [processContent, hc]

/-- Witness for C4: the marker sits in text unrelated to any annotation pair. -/
theorem claim_C4_witness :
    processContent ("x bson:\"y".data) = (Report.skip, "x bson:\"y".data) :=
  claim_C4 _ ("x ".data) ("y".data) (by decide)

/-- Claim C6: a file with no occurrence of the two-annotation pattern (and
no pre-existing marker) is reported unchanged and its content is untouched. -/
theorem claim_C6 (content : List Char) (hm : containsSub markerL content = false)
    (h0 : countMatches content = 0) :
    processContent content = (Report.noChanges, content) := by
  have hsub : subText content = content :=
    subText_eq_of_countMatches_zero content.length content (le_refl _) h0
  simp [processContent, hm, hsub]

/-- Witness for C6 on a pattern-free content. -/
theorem claim_C6_witness :
    processContent ("package model".data) = (Report.noChanges, "package model".data) :=
  claim_C6 _ (by decide) (by decide)

/-- Claim C9: the modifier flag is substring containment, so a primary value
containing `,omitempty` anywhere — in a longer token or a later component —
yields a derived value carrying the `,omitempty` suffix. -/
theorem claim_C9 (json_val db_val : List Char)
    (h : containsSub (",omitempty".data) json_val = true) :
    ",omitempty".data <:+ bsonValOf json_val db_val := by
  have ho : omitemptyOf json_val = true := h
  have hval : bsonValOf json_val db_val
      = bsonNameOf json_val db_val ++ ",omitempty".data := by
    simp [bsonValOf, ho]
  rw [hval]
  exact List.suffix_append _ _

/-- Witness for C9 at the two containment shapes named by the claim. -/
theorem claim_C9_witness :
    (",omitempty".data <:+ bsonValOf ("name,omitemptyextra".data) ("y".data)) ∧
    (",omitempty".data <:+ bsonValOf ("name,foo,omitempty".data) ("y".data)) :=
  ⟨claim_C9 _ _ (by decide), claim_C9 _ _ (by decide)⟩

/-- Claim C10: an occurrence whose primary value is empty (or starts with a
comma, making its first component empty) still matches and is rewritten,
and the derived annotation's name is the empty string. -/
theorem claim_C10 (jv dv : List Char) (hjq : '"' ∉ jv) (hdq : '"' ∉ dv)
    (h : jv = [] ∨ ∃ x, jv = ',' :: x) :
    matchAt (mkPairText jv [' '] dv) = some (jv, dv, []) ∧
    bsonNameOf jv dv = [] ∧
    subText (mkPairText jv [' '] dv) = replaceChars jv dv := by
  have hfc : firstComp jv = [] := by
    rcases h with rfl | ⟨x, rfl⟩
    · rfl
    · exact firstComp_comma x
  have hname : bsonNameOf jv dv = [] := by
    unfold bsonNameOf
    rw [hfc, if_neg (by decide : ¬ (([] : List Char) = "-".data)),
      if_neg (by decide : ¬ (([] : List Char) = "id".data))]
  have hshape : mkPairText jv [' '] dv
      = jsonTagL ++ (jv ++ '"' :: (" db:\"".data ++ (dv ++ '"' :: []))) := by
    have e2 : ((" db:\"".data) : List Char) = ' ' :: 'd' :: 'b' :: ':' :: '"' :: [] := rfl
    have e3 : ("db:\"".data : List Char) = 'd' :: 'b' :: ':' :: '"' :: [] := rfl
    simp [mkPairText, jsonTagL, e2, e3, List.append_assoc]
  have hmm : matchAt (mkPairText jv [' '] dv) = some (jv, dv, []) := by
    rw [hshape]; exact matchAt_complete jv dv [] hjq hdq
  have hcons : mkPairText jv [' '] dv
      = 'j' :: ('s' :: 'o' :: 'n' :: ':' :: '"'
          :: (jv ++ '"' :: (" db:\"".data ++ (dv ++ '"' :: [])))) := by
    rw [hshape]; rfl
  have hm2 : matchAt ('j' :: ('s' :: 'o' :: 'n' :: ':' :: '"'
      :: (jv ++ '"' :: (" db:\"".data ++ (dv ++ '"' :: []))))) = some (jv, dv, []) := by
    rw [← hcons]; exact hmm
  refine ⟨hmm, hname, ?_⟩
  rw [hcons, subText_cons_match _ _ _ _ _ hm2, subText_nil, List.append_nil]

/-- Witness for C10 with an empty primary value. -/
theorem claim_C10_witness :
    matchAt (mkPairText [] [' '] ("y".data)) = some ([], "y".data, []) ∧
    bsonNameOf [] ("y".data) = [] ∧
    subText (mkPairText [] [' '] ("y".data)) = replaceChars [] ("y".data) :=
  claim_C10 [] ("y".data) (by decide) (by decide) (Or.inl rfl)

/-- Claim C3 (amended): running the rewrite twice yields the same final
content as running it once; on the second run a file that was skipped or
updated the first time is reported as skipped, while a file that was
reported unchanged is reported unchanged again, not skipped. -/
theorem claim_C3 (content : List Char) :
    (processContent ((processContent content).2)).2 = (processContent content).2 ∧
    ((processContent content).1 ≠ Report.noChanges →
      (processContent ((processContent content).2)).1 = Report.skip) ∧
    ((processContent content).1 = Report.noChanges →
      (processContent ((processContent content).2)).1 = Report.noChanges) := by
  by_cases hm : containsSub markerL content = true
  · have h1 : processContent content = (Report.skip, content) := by
      simp [processContent, hm]
    refine ⟨by simp [h1], fun _ => by simp [h1], fun hc => ?_⟩
    rw [h1] at hc
    simp at hc
  · have hm' : containsSub markerL content = false := by simpa using hm
    by_cases hch : subText content = content
    · have h1 : processContent content = (Report.noChanges, content) := by
        simp [processContent, hm', hch]
      refine ⟨by simp [h1], fun hne => ?_, fun _ => by simp [h1]⟩
      rw [h1] at hne
      simp at hne
    · have h1 : processContent content
          = (Report.updated (countBson (subText content)), subText content) := by
        simp [processContent, hm', hch]
      have hcm : 1 ≤ countMatches content := by
        by_contra hc
        have h0 : countMatches content = 0 := by omega
        exact hch (subText_eq_of_countMatches_zero content.length content (le_refl _) h0)
      have hmark : containsSub markerL (subText content) = true :=
        containsSub_marker_subText content.length content (le_refl _) hcm
      have h2 : processContent (subText content) = (Report.skip, subText content) := by
        simp [processContent, hmark]
      refine ⟨by simp [h1, h2], fun _ => by simp [h1, h2], fun hc => ?_⟩
      rw [h1] at hc
      simp at hc

/-- Witness for C3's second-run-skip part on a file the first run updates. -/
theorem claim_C3_witness :
    (processContent ((processContent ("json:\"a\" db:\"b\"".data)).2)).1 = Report.skip :=
  (claim_C3 ("json:\"a\" db:\"b\"".data)).2.1 (by decide)

/-- Counterexample to C3 as stated: a file with no pattern match and no
marker is reported `No changes` by the first run and again by the second
run — the second run does not report it as skipped. -/
theorem claim_C3_cex :
    (processContent ((processContent ("package model".data)).2)).1 = Report.noChanges ∧
    (processContent ((processContent ("package model".data)).2)).1 ≠ Report.skip := by
  exact ⟨by decide, by decide⟩

/-- Claim C5 (amended): when a marker-free file is rewritten, the count
reported with `Updated` is the number of `bson:"` occurrences in the
post-write text; this need not equal the number of pattern matches in the
original text. -/
theorem claim_C5 (content : List Char) (hm : containsSub markerL content = false)
    (h1 : 1 ≤ countMatches content) :
    processContent content
      = (Report.updated (countBson (subText content)), subText content) := by
  have hlt : content.length < (subText content).length := by
    have := subText_length content.length content (le_refl _)
    omega
  have hne : subText content ≠ content := by
    intro he
    rw [he] at hlt
    omega
  simp [processContent, hm, hne]

/-- Witness for C5 on a one-match file. -/
theorem claim_C5_witness :
    processContent ("json:\"a\" db:\"b\"".data)
      = (Report.updated (countBson (subText ("json:\"a\" db:\"b\"".data))),
          subText ("json:\"a\" db:\"b\"".data)) :=
  claim_C5 _ (by decide) (by decide)

/-- Counterexample to C5 as stated: this marker-free input has exactly one
pattern match, but the derived value is `bson:` and, followed by its closing
quote, it forms a second `bson:"` occurrence in the post-write text, so the
reported count is 2 while the match count is 1. -/
theorem claim_C5_cex :
    countMatches ("json:\"bson:,foo\" db:\"y\"".data) = 1 ∧
    containsSub markerL ("json:\"bson:,foo\" db:\"y\"".data) = false ∧
    processContent ("json:\"bson:,foo\" db:\"y\"".data)
      = (Report.updated 2, "json:\"bson:,foo\" bson:\"bson:\" db:\"y\"".data) :=
  ⟨by decide, by decide, by decide⟩

/-- Claim C7 (amended): the selector yields the lexicographically sorted
sequence of the directory's `.go` entries that do not begin with a dot
(`glob`'s `*` does not match hidden files) and do not end in `_test.go`;
a missing directory yields the empty sequence. -/
theorem claim_C7 :
    selectFiles none = [] ∧
    ∀ names : List String,
      List.Sorted (· ≤ ·) (selectFiles (some names)) ∧
      List.Perm (selectFiles (some names))
        (names.filter (fun n => globGoMatch n && !(isTestFile n))) := by
  refine ⟨rfl, fun names => ⟨?_, ?_⟩⟩
  · have hs : List.Sorted (· ≤ ·) (List.insertionSort (· ≤ ·) (names.filter globGoMatch)) :=
      List.sorted_insertionSort _ _
    exact hs.filter _
  · have hp : List.Perm (List.insertionSort (· ≤ ·) (names.filter globGoMatch))
        (names.filter globGoMatch) := List.perm_insertionSort _ _
    have hp2 := hp.filter (fun n => !(isTestFile n))
    refine hp2.trans ?_
    rw [List.filter_filter]
    have hfun : (fun a => !(isTestFile a) && globGoMatch a)
        = fun a => globGoMatch a && !(isTestFile a) := by
      funext a
      exact Bool.and_comm _ _
    rw [hfun]

/-- Counterexample to C7 as stated: the hidden file `.a.go` ends in `.go`
and is not a test file, so the claim's description keeps it, but the glob
pattern `*.go` does not match a leading dot and the selector omits it. -/
theorem claim_C7_cex :
    selectFiles (some [".a.go"]) = [] ∧
    claimSelectFiles (some [".a.go"]) = [".a.go"] ∧
    selectFiles (some [".a.go"]) ≠ claimSelectFiles (some [".a.go"]) :=
  ⟨rfl, rfl, by decide⟩

/-- Claim C8: the pattern demands exactly one space between the two
annotations: with any other whitespace separator (empty, tab, two spaces,
newline, or any other whitespace run) the occurrence does not match and the
rewrite returns the text byte-unchanged. -/
theorem claim_C8 (jv sep dv : List Char) (hjq : '"' ∉ jv) (hjc : ':' ∉ jv)
    (hdc : ':' ∉ dv)
    (hsep : ∀ c ∈ sep, c = ' ' ∨ c = '\t' ∨ c = '\n') (hne : sep ≠ [' ']) :
    matchAt (mkPairText jv sep dv) = none ∧
    subText (mkPairText jv sep dv) = mkPairText jv sep dv := by
  refine ⟨matchAt_pair_none jv sep dv hjq hsep hne, ?_⟩
  have hshape : mkPairText jv sep dv
      = 'j' :: ('s' :: 'o' :: 'n' :: ':' :: '"'
          :: (jv ++ '"' :: (sep ++ ("db:\"".data ++ (dv ++ ['"']))))) := by
    have e3 : ("db:\"".data : List Char) = 'd' :: 'b' :: ':' :: '"' :: [] := rfl
    have e1 : ("json:\"".data : List Char) = 'j' :: 's' :: 'o' :: 'n' :: ':' :: '"' :: [] := rfl
    simp [mkPairText, e1, e3, List.append_assoc]
  have hm0 : matchAt ('j' :: ('s' :: 'o' :: 'n' :: ':' :: '"'
      :: (jv ++ '"' :: (sep ++ ("db:\"".data ++ (dv ++ ['"'])))))) = none := by
    rw [← hshape]
    exact matchAt_pair_none jv sep dv hjq hsep hne
  rw [hshape, subText_cons_nomatch _ _ hm0,
    subText_cons_nomatch _ _ (matchAt_cons_ne _ _ (by decide)),
    subText_cons_nomatch _ _ (matchAt_cons_ne _ _ (by decide)),
    subText_cons_nomatch _ _ (matchAt_cons_ne _ _ (by decide)),
    subText_cons_nomatch _ _ (matchAt_cons_ne _ _ (by decide)),
    subText_cons_nomatch _ _ (matchAt_cons_ne _ _ (by decide)),
    subText_id_jv jv sep dv hjc hsep hdc]

/-- Witness for C8 with a tab separator. -/
theorem claim_C8_witness :
    matchAt (mkPairText ("a".data) ['\t'] ("b".data)) = none ∧
    subText (mkPairText ("a".data) ['\t'] ("b".data))
      = mkPairText ("a".data) ['\t'] ("b".data) :=
  claim_C8 ("a".data) ['\t'] ("b".data) (by decide) (by decide) (by decide)
    (by decide) (by decide)
